import Mathlib

/-!
Verification of the outline decoder in `src/outline.rs` (freetype-rs).

The decoder turns a font outline - parallel buffers of points and per-point
tags plus a list of inclusive contour end offsets - into a sequence of line,
quadratic and cubic segments.  The embedding below mirrors the source
structure for structure: `CurveIterator` holds the contour slice of the
buffers together with the cursor `idx` and the contour `length`;
`CurveIterator.next` is the per-step decoder; `ContourIterator` partitions
the outline into contours.  Rust panics are modelled as explicit results
(`Step.panic`, `Option.none`), and the two `debug_assert!` checks of the
cubic arm are active exactly when the `dbg` flag is `true`, matching their
conditional compilation.
-/

set_option maxHeartbeats 1000000

namespace FT

/-- A 2D point with signed integer coordinates, embedding `FT_Vector`
(fields `x`, `y` of signed type `FT_Pos`). -/
structure Vector where
  x : Int
  y : Int
deriving DecidableEq

/-- Output segments, embedding `enum Curve` from `src/outline.rs`. -/
inductive Curve where
  | Line (p : Vector)
  | Bezier2 (c p : Vector)
  | Bezier3 (c1 c2 p : Vector)
deriving DecidableEq

/-- The endpoint a segment moves the path to (its last coordinate field). -/
def Curve.endpoint : Curve → Vector
  | .Line p => p
  | .Bezier2 _ p => p
  | .Bezier3 _ _ p => p

/-- Embeds `middle_point`: coordinatewise `(a + b) / 2` where `/` is Rust
signed integer division, i.e. truncation toward zero (`Int.tdiv`). -/
def middle_point (pt1 pt2 : Vector) : Vector :=
  ⟨Int.tdiv (pt1.x + pt2.x) 2, Int.tdiv (pt1.y + pt2.y) 2⟩

/-- Default value modelling a raw-pointer read; never reached on the
well-formed data the theorems quantify over. -/
def vdefault : Vector := ⟨0, 0⟩

/-- Embeds the `FT_Outline` data as exposed by `Outline::points`, `tags`,
`contours`: three caller-owned buffers (`n_points`, `n_contours` are the
list lengths). -/
structure Outline where
  points : List Vector
  tags : List Int
  contours : List Int
deriving DecidableEq

def TAG_MASK : Int := 0x03
def TAG_ONCURVE : Int := 0x01
def TAG_BEZIER2 : Int := 0x00
def TAG_BEZIER3 : Int := 0x02

/-- Embeds `CurveIterator`: `start_point` and `start_tag` model the pointers
to the contour's first point and tag (represented as the contour's slice of
the buffers - the iterator never reads outside offsets `0..length-1`),
`idx` the cursor and `length` the value `end_idx - start_idx + 1`. -/
structure CurveIterator where
  start_point : List Vector
  start_tag : List Int
  idx : Int
  length : Int
deriving DecidableEq

/-- Embeds `CurveIterator::from_raw(outline, start_idx, end_idx)`: the cursor
starts at `-1` when the first tag is off-curve quadratic after masking, else
at `0`. -/
def CurveIterator.from_raw (outline : Outline) (start_idx end_idx : Int) :
    CurveIterator :=
  { start_point :=
      (outline.points.drop start_idx.toNat).take (end_idx - start_idx + 1).toNat,
    start_tag :=
      (outline.tags.drop start_idx.toNat).take (end_idx - start_idx + 1).toNat,
    idx := if Int.land (outline.tags.getD start_idx.toNat 0) TAG_MASK = TAG_BEZIER2
           then -1 else 0,
    length := end_idx - start_idx + 1 }

/-- The curve iterator for one whole contour given directly by its point and
tag lists; this is `from_raw` at `start_idx = 0`, `end_idx = L - 1` (see
`fromContour_eq_from_raw`). -/
def fromContour (pts : List Vector) (tgs : List Int) : CurveIterator :=
  { start_point := pts,
    start_tag := tgs,
    idx := if Int.land (tgs.getD 0 0) TAG_MASK = TAG_BEZIER2 then -1 else 0,
    length := (pts.length : Int) }

/-- Embeds `CurveIterator::start`.  The first tag is masked with `TAG_MASK`;
the last tag is matched unmasked, exactly as in the source.  `none` models
the `Unexpected curve tag` panic. -/
def CurveIterator.start? (s : CurveIterator) : Option Vector :=
  if Int.land (s.start_tag.getD 0 0) TAG_MASK = TAG_BEZIER2 then
    if s.start_tag.getD (s.length - 1).toNat 0 = TAG_ONCURVE then
      some (s.start_point.getD (s.length - 1).toNat vdefault)
    else if s.start_tag.getD (s.length - 1).toNat 0 = TAG_BEZIER2 then
      some (middle_point (s.start_point.getD (s.length - 1).toNat vdefault)
                         (s.start_point.getD 0 vdefault))
    else none
  else some (s.start_point.getD 0 vdefault)

/-- Embeds `CurveIterator::pt`: the point at offset `i` from the cursor;
offsets reaching `length` or beyond wrap to the contour's first point. -/
def CurveIterator.pt (s : CurveIterator) (i : Int) : Vector :=
  if s.idx + i < s.length then s.start_point.getD (s.idx + i).toNat vdefault
  else s.start_point.getD 0 vdefault

/-- Embeds `CurveIterator::tg`: the (unmasked) tag at offset `i` from the
cursor, with the same wraparound as `pt`. -/
def CurveIterator.tg (s : CurveIterator) (i : Int) : Int :=
  if s.idx + i < s.length then s.start_tag.getD (s.idx + i).toNat 0
  else s.start_tag.getD 0 0

/-- One observable outcome of `CurveIterator::next`: `done` models `None`
(the source returns it without mutating `self`), `yield` carries the segment
and the mutated iterator, `panic` models the `Unexpected curve tag` panic. -/
inductive Step where
  | done
  | panic
  | yield (c : Curve) (s : CurveIterator)
deriving DecidableEq

/-- Embeds `<CurveIterator as Iterator>::next`.  The match on the unmasked
`tg 1` value follows the source arm for arm; the two `debug_assert!` checks
of the cubic arm fire only when `dbg = true` (debug builds). -/
def CurveIterator.next (dbg : Bool) (s : CurveIterator) : Step :=
  if s.length ≤ s.idx then .done
  else if s.tg 1 = TAG_ONCURVE then
    .yield (.Line (s.pt 1)) { s with idx := s.idx + 1 }
  else if s.tg 1 = TAG_BEZIER2 then
    if s.idx = s.length - 1 then .done
    else if s.tg 2 = TAG_ONCURVE then
      .yield (.Bezier2 (s.pt 1) (s.pt 2)) { s with idx := s.idx + 2 }
    else if s.tg 2 = TAG_BEZIER2 then
      .yield (.Bezier2 (s.pt 1) (middle_point (s.pt 1) (s.pt 2)))
             { s with idx := s.idx + 1 }
    else .panic
  else if s.tg 1 = TAG_BEZIER3 then
    if dbg = true ∧ ¬(s.tg 2 = TAG_BEZIER3 ∧ s.tg 3 = TAG_ONCURVE) then .panic
    else .yield (.Bezier3 (s.pt 1) (s.pt 2) (s.pt 3)) { s with idx := s.idx + 3 }
  else .panic

/-- The iterator state after one call to `next`: unchanged unless a segment
was yielded (both `None` paths of the source return without mutation). -/
def CurveIterator.nextState (dbg : Bool) (s : CurveIterator) : CurveIterator :=
  match CurveIterator.next dbg s with
  | .yield _ s' => s'
  | _ => s

/-- Result of draining a curve iterator: the yielded segments in order, a
panic, or fuel exhaustion (unreachable for the fuel `curves` supplies). -/
inductive RunResult where
  | ok (segs : List Curve)
  | panic
  | fuelOut
deriving DecidableEq

/-- Prepend a yielded segment to the result of draining the rest. -/
def consOk (c : Curve) : RunResult → RunResult
  | .ok segs => .ok (c :: segs)
  | r => r

/-- Drain the iterator, spending one unit of fuel per call to `next`. -/
def runFuel (dbg : Bool) : Nat → CurveIterator → RunResult
  | 0, _ => .fuelOut
  | f + 1, s =>
    match CurveIterator.next dbg s with
    | .done => .ok []
    | .panic => .panic
    | .yield c s' => consOk c (runFuel dbg f s')

/-- The complete segment sequence of a contour.  Every yield advances the
cursor by at least one, so `(length - idx).toNat + 1` calls drain any
iterator. -/
def curves (dbg : Bool) (s : CurveIterator) : RunResult :=
  runFuel dbg ((s.length - s.idx).toNat + 1) s

/-- Embeds `ContourIterator`: the pointer pair
`contour_end_idx .. last_end_idx` is modelled as the list `rest` of
remaining end offsets. -/
structure ContourIterator where
  outline : Outline
  contour_start : Int
  rest : List Int
deriving DecidableEq

/-- Embeds `ContourIterator::from_raw`. -/
def ContourIterator.from_raw (outline : Outline) : ContourIterator :=
  { outline := outline, contour_start := 0, rest := outline.contours }

/-- Embeds `<ContourIterator as Iterator>::next`: consume the next end
offset, build the curve iterator over `[contour_start, contour_end]`, and
advance `contour_start` to `contour_end + 1`. -/
def ContourIterator.next (s : ContourIterator) :
    Option (CurveIterator × ContourIterator) :=
  match s.rest with
  | [] => none
  | contour_end :: r =>
    some (CurveIterator.from_raw s.outline s.contour_start contour_end,
          { outline := s.outline, contour_start := contour_end + 1, rest := r })

/-- The contour iterator state after `k` calls to `next`. -/
def ContourIterator.stepN (s : ContourIterator) : Nat → ContourIterator
  | 0 => s
  | k + 1 =>
    match (s.stepN k).next with
    | some (_, s') => s'
    | none => s.stepN k

/-- The start index of contour `k`: `0` for the first contour, one past the
previous contour's end offset afterwards. -/
def contourStart (o : Outline) : Nat → Int
  | 0 => 0
  | k + 1 => o.contours.getD k 0 + 1

end FT

namespace FT

/-- `fromContour` is `CurveIterator::from_raw` applied to the whole contour
`[0, L-1]` of a single-contour outline. -/
theorem fromContour_eq_from_raw (pts : List Vector) (tgs : List Int)
    (hne : pts ≠ []) (hlen : tgs.length = pts.length) (contours : List Int) :
    fromContour pts tgs =
      CurveIterator.from_raw ⟨pts, tgs, contours⟩ 0 ((pts.length : Int) - 1) := by
  have hp : 0 < pts.length := List.length_pos.mpr hne
  have h1 : ((pts.length : Int) - 1 - 0 + 1).toNat = pts.length := by
    have h2 : ((pts.length : Int) - 1 - 0 + 1) = (pts.length : Int) := by ring
    rw [h2]; omega
  unfold fromContour CurveIterator.from_raw
  simp only [Int.toNat_zero, List.drop_zero, h1, List.take_length,
    CurveIterator.mk.injEq]
  refine ⟨trivial, ?_, trivial, by omega⟩
  rw [← hlen]; exact (List.take_length tgs).symm

/-- `next` returns `None` exactly at cursor exhaustion or at the early return
of the quadratic arm on the last local index. -/
theorem next_done_iff (dbg : Bool) (s : CurveIterator) :
    CurveIterator.next dbg s = .done ↔
      s.length ≤ s.idx ∨ (s.tg 1 = TAG_BEZIER2 ∧ s.idx = s.length - 1) := by
  unfold CurveIterator.next
  split_ifs with h1 h2 h3 h4 h5 h6 h7 <;>
    simp_all [TAG_ONCURVE, TAG_BEZIER2, TAG_BEZIER3]

/-- Case analysis of a successful `next`: the four yielding arms of the
source, with the conditions that guard them. -/
theorem next_yield_cases {dbg : Bool} {s : CurveIterator} {c : Curve}
    {s' : CurveIterator} (h : CurveIterator.next dbg s = .yield c s') :
    s.idx < s.length ∧
    ((s.tg 1 = TAG_ONCURVE ∧ c = .Line (s.pt 1) ∧
        s' = { s with idx := s.idx + 1 }) ∨
     (s.tg 1 = TAG_BEZIER2 ∧ s.idx ≠ s.length - 1 ∧ s.tg 2 = TAG_ONCURVE ∧
        c = .Bezier2 (s.pt 1) (s.pt 2) ∧ s' = { s with idx := s.idx + 2 }) ∨
     (s.tg 1 = TAG_BEZIER2 ∧ s.idx ≠ s.length - 1 ∧ s.tg 2 = TAG_BEZIER2 ∧
        c = .Bezier2 (s.pt 1) (middle_point (s.pt 1) (s.pt 2)) ∧
        s' = { s with idx := s.idx + 1 }) ∨
     (s.tg 1 = TAG_BEZIER3 ∧
        (dbg = true → s.tg 2 = TAG_BEZIER3 ∧ s.tg 3 = TAG_ONCURVE) ∧
        c = .Bezier3 (s.pt 1) (s.pt 2) (s.pt 3) ∧
        s' = { s with idx := s.idx + 3 })) := by
  unfold CurveIterator.next at h
  split_ifs at h with h1 h2 h3 h4 h5 h6 h7 <;>
    first
      | exact Step.noConfusion h
      | · injection h with hc hs
          subst hc; subst hs
          refine ⟨by omega, ?_⟩
          tauto


theorem closure_step {s : CurveIterator} {c : Curve} {s' : CurveIterator}
    (hy : CurveIterator.next true s = .yield c s')
    (hd : CurveIterator.next true s' = .done) :
    s.start? = some c.endpoint := by
  obtain ⟨P, T, i, L⟩ := s
  obtain ⟨hlt, hcase⟩ := next_yield_cases hy
  rw [next_done_iff] at hd
  rcases hcase with ⟨ht1, rfl, rfl⟩ | ⟨ht1, hne1, ht2, rfl, rfl⟩ |
    ⟨ht1, hne1, ht2, rfl, rfl⟩ | ⟨ht1, hast, rfl, rfl⟩
  · -- Line arm
    simp only [CurveIterator.tg, CurveIterator.pt, CurveIterator.start?,
      Curve.endpoint, TAG_ONCURVE, TAG_BEZIER2, TAG_MASK] at ht1 hd hlt ⊢
    rcases hd with hge | ⟨ht1', hix⟩
    · rw [if_neg (by omega : ¬ i + 1 < L)] at ht1
      rw [if_neg (by omega : ¬ i + 1 < L), ht1,
        if_neg (by decide : ¬ (1 : Int).land 3 = 0)]
    · rw [if_pos (by omega : i + 1 < L)] at ht1
      rw [if_neg (by omega : ¬ i + 1 + 1 < L)] at ht1'
      rw [if_pos (by omega : i + 1 < L), ht1',
        if_pos (by decide : (0 : Int).land 3 = 0),
        show (L - 1).toNat = (i + 1).toNat from by omega, if_pos ht1]
  · -- quadratic arm, on-curve end
    simp only [CurveIterator.tg, CurveIterator.pt, CurveIterator.start?,
      Curve.endpoint, TAG_ONCURVE, TAG_BEZIER2, TAG_MASK] at ht1 ht2 hd hlt hne1 ⊢
    rcases hd with hge | ⟨ht1', hix⟩
    · rw [if_neg (by omega : ¬ i + 2 < L)] at ht2
      rw [if_neg (by omega : ¬ i + 2 < L), ht2,
        if_neg (by decide : ¬ (1 : Int).land 3 = 0)]
    · rw [if_pos (by omega : i + 2 < L)] at ht2
      rw [if_neg (by omega : ¬ i + 2 + 1 < L)] at ht1'
      rw [if_pos (by omega : i + 2 < L), ht1',
        if_pos (by decide : (0 : Int).land 3 = 0),
        show (L - 1).toNat = (i + 2).toNat from by omega, if_pos ht2]
  · -- quadratic arm, two consecutive off-curve controls
    simp only [CurveIterator.tg, CurveIterator.pt, CurveIterator.start?,
      Curve.endpoint, TAG_ONCURVE, TAG_BEZIER2, TAG_MASK] at ht1 ht2 hd hlt hne1 ⊢
    rcases hd with hge | ⟨ht1', hix⟩
    · omega
    · rw [if_pos (by omega : i + 1 < L)] at ht1
      rw [if_neg (by omega : ¬ i + 2 < L)] at ht2
      rw [if_pos (by omega : i + 1 < L), if_neg (by omega : ¬ i + 2 < L), ht2,
        if_pos (by decide : (0 : Int).land 3 = 0),
        show (L - 1).toNat = (i + 1).toNat from by omega, ht1,
        if_neg (by decide : ¬ (0 : Int) = 1), if_pos rfl]
  · -- cubic arm
    obtain ⟨ht2, ht3⟩ := hast rfl
    simp only [CurveIterator.tg, CurveIterator.pt, CurveIterator.start?,
      Curve.endpoint, TAG_ONCURVE, TAG_BEZIER2, TAG_BEZIER3, TAG_MASK]
      at ht1 ht2 ht3 hd hlt ⊢
    rcases hd with hge | ⟨ht1', hix⟩
    · have hcases : i = L - 3 ∨ i = L - 2 ∨ i = L - 1 := by omega
      rcases hcases with h3 | h2 | h1
      · rw [if_neg (by omega : ¬ i + 3 < L)] at ht3
        rw [if_neg (by omega : ¬ i + 3 < L), ht3,
          if_neg (by decide : ¬ (1 : Int).land 3 = 0)]
      · rw [if_neg (by omega : ¬ i + 2 < L)] at ht2
        rw [if_neg (by omega : ¬ i + 3 < L)] at ht3
        omega
      · rw [if_neg (by omega : ¬ i + 1 < L)] at ht1
        rw [if_neg (by omega : ¬ i + 3 < L)] at ht3
        omega
    · rw [if_pos (by omega : i + 3 < L)] at ht3
      rw [if_neg (by omega : ¬ i + 3 + 1 < L)] at ht1'
      rw [if_pos (by omega : i + 3 < L), ht1',
        if_pos (by decide : (0 : Int).land 3 = 0),
        show (L - 1).toNat = (i + 3).toNat from by omega, if_pos ht3]



/-- A successful `next` leaves the buffers and length unchanged and advances
the cursor by 1, 2 or 3. -/
theorem next_yield_state {dbg : Bool} {s : CurveIterator} {c : Curve}
    {s' : CurveIterator} (h : CurveIterator.next dbg s = .yield c s') :
    s'.start_point = s.start_point ∧ s'.start_tag = s.start_tag ∧
    s'.length = s.length ∧ s.idx < s.length ∧
    (s'.idx = s.idx + 1 ∨ s'.idx = s.idx + 2 ∨ s'.idx = s.idx + 3) := by
  obtain ⟨hlt, hcase⟩ := next_yield_cases h
  rcases hcase with ⟨-, -, rfl⟩ | ⟨-, -, -, -, rfl⟩ | ⟨-, -, -, -, rfl⟩ |
    ⟨-, -, -, rfl⟩
  · exact ⟨rfl, rfl, rfl, hlt, Or.inl rfl⟩
  · exact ⟨rfl, rfl, rfl, hlt, Or.inr (Or.inl rfl)⟩
  · exact ⟨rfl, rfl, rfl, hlt, Or.inl rfl⟩
  · exact ⟨rfl, rfl, rfl, hlt, Or.inr (Or.inr rfl)⟩

/-- `start` only reads the buffers and the length, so it is unchanged across
a yield. -/
theorem start?_of_yield {dbg : Bool} {s : CurveIterator} {c : Curve}
    {s' : CurveIterator} (h : CurveIterator.next dbg s = .yield c s') :
    s'.start? = s.start? := by
  obtain ⟨hp, ht, hl, -, -⟩ := next_yield_state h
  unfold CurveIterator.start?
  rw [hp, ht, hl]

/-- An empty successful drain means the very first `next` returned `None`. -/
theorem runFuel_ok_nil {dbg : Bool} {f : Nat} {s : CurveIterator}
    (h : runFuel dbg f s = .ok []) : CurveIterator.next dbg s = .done := by
  cases f with
  | zero => exact RunResult.noConfusion h
  | succ f =>
    simp only [runFuel] at h
    split at h
    · rename_i hn; exact hn
    · exact RunResult.noConfusion h
    · rename_i c s' hn
      cases hr : runFuel dbg f s' with
      | ok segs =>
        rw [hr] at h
        simp only [consOk] at h
        exact absurd h (by simp)
      | panic => rw [hr] at h; exact RunResult.noConfusion h
      | fuelOut => rw [hr] at h; exact RunResult.noConfusion h

/-- Any successful non-empty drain under debug assertions ends with a
segment whose endpoint is the resolved start point. -/
theorem runFuel_last_closes :
    ∀ (f : Nat) (s : CurveIterator) (segs : List Curve) (c : Curve),
      runFuel true f s = .ok segs → segs.getLast? = some c →
      s.start? = some c.endpoint := by
  intro f
  induction f with
  | zero => intro s segs c h _; exact RunResult.noConfusion h
  | succ f ih =>
    intro s segs c h hlast
    simp only [runFuel] at h
    split at h
    · rename_i hn
      injection h with hsegs
      rw [← hsegs] at hlast
      exact Option.noConfusion hlast
    · exact RunResult.noConfusion h
    · rename_i c0 s' hn
      cases hr : runFuel true f s' with
      | ok segs' =>
        rw [hr] at h
        simp only [consOk] at h
        injection h with hsegs
        rw [← hsegs] at hlast
        cases segs' with
        | nil =>
          have hdone : CurveIterator.next true s' = .done := runFuel_ok_nil hr
          have hlc : c0 = c := by simpa using hlast
          rw [← hlc]
          exact closure_step hn hdone
        | cons c1 rest =>
          rw [List.getLast?_cons_cons] at hlast
          have hrec := ih s' (c1 :: rest) c hr hlast
          rw [← start?_of_yield hn]
          exact hrec
      | panic => rw [hr] at h; exact RunResult.noConfusion h
      | fuelOut => rw [hr] at h; exact RunResult.noConfusion h

/-- On a non-empty contour, the first call to `next` never returns `None`. -/
theorem first_next_not_done (pts : List Vector) (tgs : List Int)
    (hne : pts ≠ []) (dbg : Bool) :
    CurveIterator.next dbg (fromContour pts tgs) ≠ .done := by
  intro h
  have hp : 0 < pts.length := List.length_pos.mpr hne
  rw [next_done_iff] at h
  simp only [fromContour, CurveIterator.tg] at h
  by_cases hm : Int.land (tgs.getD 0 0) TAG_MASK = TAG_BEZIER2
  · rw [if_pos hm] at h
    rcases h with h | ⟨-, hix⟩
    · omega
    · omega
  · rw [if_neg hm] at h
    rcases h with h | ⟨ht, hix⟩
    · omega
    · rw [if_neg (by omega : ¬ (0 : Int) + 1 < (pts.length : Int))] at ht
      exact hm (by rw [ht]; decide)

/-- C1: for every contour whose decoding succeeds, the sequence of yielded
segments is non-empty and traces a closed path: the endpoint of the final
yielded segment equals the value returned by `start()`. -/
theorem curve_closure (pts : List Vector) (tgs : List Int)
    (hne : pts ≠ []) (segs : List Curve)
    (hrun : curves true (fromContour pts tgs) = .ok segs) :
    segs ≠ [] ∧
    (fromContour pts tgs).start? = segs.getLast?.map Curve.endpoint := by
  unfold curves at hrun
  have hnempty : segs ≠ [] := by
    intro hnil
    rw [hnil] at hrun
    exact first_next_not_done pts tgs hne true (runFuel_ok_nil hrun)
  obtain ⟨c, hc⟩ : ∃ c, segs.getLast? = some c := by
    cases segs with
    | nil => exact absurd rfl hnempty
    | cons a l => exact ⟨(a :: l).getLast (by simp), List.getLast?_eq_getLast _ _⟩
  have hclose := runFuel_last_closes _ _ _ _ hrun hc
  rw [hc]
  exact ⟨hnempty, by rw [hclose]; rfl⟩

/-- Concrete instance of `curve_closure`: an all-on-curve triangle. -/
theorem curve_closure_case :
    ([Curve.Line ⟨2,0⟩, Curve.Line ⟨2,2⟩, Curve.Line ⟨0,0⟩] ≠ ([] : List Curve)) ∧
    (fromContour [⟨0,0⟩, ⟨2,0⟩, ⟨2,2⟩] [1, 1, 1]).start? =
      ([Curve.Line ⟨2,0⟩, Curve.Line ⟨2,2⟩,
        Curve.Line ⟨0,0⟩].getLast?.map Curve.endpoint) :=
  curve_closure [⟨0,0⟩, ⟨2,0⟩, ⟨2,2⟩] [1, 1, 1] (by decide) _ (by decide)



/-- C10: a single-point contour with an on-curve tag starts at its point and
decodes to exactly one `Line` segment ending at that same point. -/
theorem single_point_contour (p : Vector) :
    (fromContour [p] [TAG_ONCURVE]).start? = some p ∧
    curves true (fromContour [p] [TAG_ONCURVE]) = .ok [.Line p] ∧
    (Curve.Line p).endpoint = p :=
  ⟨rfl, rfl, rfl⟩

/-- C5 counterexample: on the two-point off-curve contour
`[(0,0) QUAD, (5,5) QUAD]` the start point is `(2,2)`, which is not the
exact arithmetic midpoint of `(0,0)` and `(5,5)` because `2 * 2 ≠ 0 + 5`;
the exact mean `(2.5, 2.5)` is not even representable in the integer
coordinate type. -/
theorem start_midpoint_not_exact :
    (fromContour [⟨0, 0⟩, ⟨5, 5⟩] [TAG_BEZIER2, TAG_BEZIER2]).start? =
      some ⟨2, 2⟩ ∧
    ¬ (2 * (2 : Int) = 0 + 5) :=
  ⟨rfl, by decide⟩

/-- C5 amended: for the two-point off-curve contour `[p QUAD, q QUAD]`,
`start()` returns the truncating-integer-division midpoint of the last and
first points, `((q.x + p.x) / 2, (q.y + p.y) / 2)` with `/` rounding toward
zero; the result is the exact arithmetic mean only when each coordinate sum
is even. -/
theorem start_midpoint_truncated (p q : Vector) :
    (fromContour [p, q] [TAG_BEZIER2, TAG_BEZIER2]).start? =
      some ⟨Int.tdiv (q.x + p.x) 2, Int.tdiv (q.y + p.y) 2⟩ :=
  rfl

/-- C2: tag buffers that agree on the low two bits of every tag do not
decode identically, because `tg`/`next` (and the last-tag match in `start`)
compare unmasked tag values.  The tags `0x05` and `0x01` have equal low
bits, yet the contour decodes to one `Line` under `0x01` and panics under
`0x05` (in both build modes). -/
theorem tag_high_bits_divergence :
    Int.land 5 TAG_MASK = Int.land 1 TAG_MASK ∧
    curves true (fromContour [⟨0, 0⟩] [1]) = .ok [.Line ⟨0, 0⟩] ∧
    curves true (fromContour [⟨0, 0⟩] [5]) = .panic ∧
    curves false (fromContour [⟨0, 0⟩] [5]) = .panic := by
  refine ⟨by decide, rfl, rfl, rfl⟩

/-- C7 counterexample: with debug assertions compiled out (release builds),
a cubic control followed by an on-curve point is not rejected: `next` yields
a `CubicBezier` that consumes the on-curve point at offset `+2` as a second
control point. -/
theorem cubic_malformed_release_yields :
    CurveIterator.next false
        (fromContour [⟨0, 0⟩, ⟨1, 1⟩, ⟨2, 2⟩, ⟨3, 3⟩]
          [TAG_ONCURVE, TAG_BEZIER3, TAG_ONCURVE, TAG_ONCURVE]) =
      .yield (.Bezier3 ⟨1, 1⟩ ⟨2, 2⟩ ⟨3, 3⟩)
        { start_point := [⟨0, 0⟩, ⟨1, 1⟩, ⟨2, 2⟩, ⟨3, 3⟩],
          start_tag := [TAG_ONCURVE, TAG_BEZIER3, TAG_ONCURVE, TAG_ONCURVE],
          idx := 3, length := 4 } := by
  decide

/-- C7 amended: with debug assertions enabled (debug builds), whenever the
tag at offset `+1` is a cubic control but the tag at `+2` is not a cubic
control or the tag at `+3` is not on-curve, `next` aborts at the point of
detection without yielding a segment. -/
theorem cubic_malformed_debug_rejects (s : CurveIterator)
    (h1 : s.idx < s.length) (h2 : s.tg 1 = TAG_BEZIER3)
    (h3 : ¬ (s.tg 2 = TAG_BEZIER3 ∧ s.tg 3 = TAG_ONCURVE)) :
    CurveIterator.next true s = .panic := by
  unfold CurveIterator.next
  rw [if_neg (by omega : ¬ s.length ≤ s.idx), h2,
    if_neg (by decide : ¬ TAG_BEZIER3 = TAG_ONCURVE),
    if_neg (by decide : ¬ TAG_BEZIER3 = TAG_BEZIER2),
    if_pos (rfl : TAG_BEZIER3 = TAG_BEZIER3),
    if_pos (⟨rfl, h3⟩ : true = true ∧ ¬ (s.tg 2 = TAG_BEZIER3 ∧ s.tg 3 = TAG_ONCURVE))]

/-- Concrete instance of `cubic_malformed_debug_rejects`. -/
theorem cubic_malformed_debug_rejects_case :
    CurveIterator.next true
        (fromContour [⟨0, 0⟩, ⟨1, 1⟩, ⟨2, 2⟩, ⟨3, 3⟩]
          [TAG_ONCURVE, TAG_BEZIER3, TAG_ONCURVE, TAG_ONCURVE]) = .panic :=
  cubic_malformed_debug_rejects _ (by decide) (by decide) (by decide)

/-- C3: when the cursor is strictly below `L - 1` and the tags at offsets
`+1` and `+2` are both quadratic controls, `next` yields exactly one
`QuadraticBezier` whose control is the point at `+1` and whose end is the
(truncated) midpoint of the points at `+1` and `+2`, and the cursor
advances by exactly 1. -/
theorem double_quadratic_step (dbg : Bool) (s : CurveIterator)
    (h1 : s.idx < s.length - 1) (h2 : s.tg 1 = TAG_BEZIER2)
    (h3 : s.tg 2 = TAG_BEZIER2) :
    CurveIterator.next dbg s =
      .yield (.Bezier2 (s.pt 1) (middle_point (s.pt 1) (s.pt 2)))
        { s with idx := s.idx + 1 } := by
  unfold CurveIterator.next
  rw [if_neg (by omega : ¬ s.length ≤ s.idx), h2,
    if_neg (by decide : ¬ TAG_BEZIER2 = TAG_ONCURVE),
    if_pos (rfl : TAG_BEZIER2 = TAG_BEZIER2),
    if_neg (by omega : ¬ s.idx = s.length - 1), h3,
    if_neg (by decide : ¬ TAG_BEZIER2 = TAG_ONCURVE),
    if_pos (rfl : TAG_BEZIER2 = TAG_BEZIER2)]

/-- Concrete instance of `double_quadratic_step`. -/
theorem double_quadratic_step_case :
    CurveIterator.next true
        (fromContour [⟨0, 0⟩, ⟨1, 0⟩, ⟨3, 2⟩, ⟨5, 5⟩]
          [TAG_ONCURVE, TAG_BEZIER2, TAG_BEZIER2, TAG_ONCURVE]) =
      .yield (.Bezier2 ⟨1, 0⟩ ⟨2, 1⟩)
        { start_point := [⟨0, 0⟩, ⟨1, 0⟩, ⟨3, 2⟩, ⟨5, 5⟩],
          start_tag := [TAG_ONCURVE, TAG_BEZIER2, TAG_BEZIER2, TAG_ONCURVE],
          idx := 1, length := 4 } :=
  double_quadratic_step true _ (by decide) (by decide) (by decide)

/-- C4: `start()` resolves the start point by three cases - point 0
on-curve gives point 0; point 0 quadratic (masked) with last tag on-curve
gives the last point; both quadratic gives the truncated midpoint of the
last point and point 0; any other last tag (when point 0 is quadratic) is
the panic case. -/
theorem start_point_cases (pts : List Vector) (tgs : List Int)
    (hne : pts ≠ []) (_hlen : tgs.length = pts.length) :
    (Int.land (tgs.getD 0 0) TAG_MASK = TAG_ONCURVE →
      (fromContour pts tgs).start? = some (pts.getD 0 vdefault)) ∧
    (Int.land (tgs.getD 0 0) TAG_MASK = TAG_BEZIER2 →
      (tgs.getD (pts.length - 1) 0 = TAG_ONCURVE →
        (fromContour pts tgs).start? =
          some (pts.getD (pts.length - 1) vdefault)) ∧
      (tgs.getD (pts.length - 1) 0 = TAG_BEZIER2 →
        (fromContour pts tgs).start? =
          some (middle_point (pts.getD (pts.length - 1) vdefault)
                             (pts.getD 0 vdefault))) ∧
      (tgs.getD (pts.length - 1) 0 ≠ TAG_ONCURVE →
        tgs.getD (pts.length - 1) 0 ≠ TAG_BEZIER2 →
        (fromContour pts tgs).start? = none)) := by
  have hp : 0 < pts.length := List.length_pos.mpr hne
  have hnat : ((pts.length : Int) - 1).toNat = pts.length - 1 := by omega
  constructor
  · intro h
    unfold CurveIterator.start? fromContour
    rw [if_neg (by rw [h]; decide)]
  · intro h
    refine ⟨?_, ?_, ?_⟩
    · intro hlast
      unfold CurveIterator.start? fromContour
      simp only [hnat]
      rw [if_pos h, if_pos hlast]
    · intro hlast
      unfold CurveIterator.start? fromContour
      simp only [hnat]
      rw [if_pos h, if_neg (by rw [hlast]; decide), if_pos hlast]
    · intro hl1 hl0
      unfold CurveIterator.start? fromContour
      simp only [hnat]
      rw [if_pos h, if_neg hl1, if_neg hl0]

/-- Concrete instances of the three start-point cases of
`start_point_cases` and of the panic case. -/
theorem start_point_cases_case :
    (fromContour [⟨1, 2⟩] [TAG_ONCURVE]).start? = some ⟨1, 2⟩ ∧
    (fromContour [⟨1, 2⟩, ⟨3, 4⟩] [TAG_BEZIER2, TAG_ONCURVE]).start? =
      some ⟨3, 4⟩ ∧
    (fromContour [⟨1, 2⟩, ⟨3, 4⟩] [TAG_BEZIER2, TAG_BEZIER2]).start? =
      some ⟨2, 3⟩ ∧
    (fromContour [⟨1, 2⟩, ⟨3, 4⟩] [TAG_BEZIER2, TAG_BEZIER3]).start? = none :=
  ⟨(start_point_cases [⟨1, 2⟩] [TAG_ONCURVE] (by decide) (by decide)).1
      (by decide),
   ((start_point_cases [⟨1, 2⟩, ⟨3, 4⟩] [TAG_BEZIER2, TAG_ONCURVE]
      (by decide) (by decide)).2 (by decide)).1 (by decide),
   ((start_point_cases [⟨1, 2⟩, ⟨3, 4⟩] [TAG_BEZIER2, TAG_BEZIER2]
      (by decide) (by decide)).2 (by decide)).2.1 (by decide),
   ((start_point_cases [⟨1, 2⟩, ⟨3, 4⟩] [TAG_BEZIER2, TAG_BEZIER3]
      (by decide) (by decide)).2 (by decide)).2.2 (by decide) (by decide)⟩



/-- Replicate lookup helper. -/
theorem getD_replicate {n k : Nat} (h : k < n) (a d : Int) :
    (List.replicate n a).getD k d = a := by
  rw [List.getD_eq_getElem _ _ (by simpa using h), List.getElem_replicate]

/-- After `k` steps the contour iterator sits at start index `contourStart k`
with the end offsets from position `k` onwards still to consume. -/
theorem stepN_state (o : Outline) :
    ∀ k : Nat, k ≤ o.contours.length →
      (ContourIterator.from_raw o).stepN k =
        ⟨o, contourStart o k, o.contours.drop k⟩ := by
  intro k
  induction k with
  | zero => intro _; rfl
  | succ k ih =>
    intro hk
    have hlt : k < o.contours.length := by omega
    simp only [ContourIterator.stepN]
    rw [ih (by omega)]
    simp only [ContourIterator.next, List.drop_eq_getElem_cons hlt]
    simp only [contourStart]
    rw [List.getD_eq_getElem _ _ hlt]

/-- C8: the contour iterator yields exactly one curve iterator per
contour-end offset, in order: after `k` steps (`k < n_contours`) the next
call returns the curve iterator over the inclusive range
`[contourStart k, contours[k]]` together with the `k+1`-step state, where
`contourStart 0 = 0` and `contourStart (k+1) = contours[k] + 1`; and after
all `n_contours` offsets are consumed, `next` returns `None`. -/
theorem contour_partition (o : Outline) (k : Nat)
    (hk : k < o.contours.length) :
    ((ContourIterator.from_raw o).stepN k).next =
      some (CurveIterator.from_raw o (contourStart o k) (o.contours.getD k 0),
            (ContourIterator.from_raw o).stepN (k + 1)) ∧
    ((ContourIterator.from_raw o).stepN o.contours.length).next = none := by
  constructor
  · rw [stepN_state o k (le_of_lt hk), stepN_state o (k + 1) hk]
    simp only [ContourIterator.next, List.drop_eq_getElem_cons hk]
    simp only [contourStart]
    rw [List.getD_eq_getElem _ _ hk]
  · rw [stepN_state o _ le_rfl]
    simp only [ContourIterator.next, List.drop_length]

/-- Concrete instance of `contour_partition`: the second contour of a
two-contour outline covers `[1, 2]`. -/
theorem contour_partition_case :
    ((ContourIterator.from_raw
        ⟨[⟨0, 0⟩, ⟨1, 0⟩, ⟨2, 0⟩], [1, 1, 1], [0, 2]⟩).stepN 1).next =
      some (CurveIterator.from_raw
              ⟨[⟨0, 0⟩, ⟨1, 0⟩, ⟨2, 0⟩], [1, 1, 1], [0, 2]⟩ 1 2,
            (ContourIterator.from_raw
              ⟨[⟨0, 0⟩, ⟨1, 0⟩, ⟨2, 0⟩], [1, 1, 1], [0, 2]⟩).stepN 2) ∧
    ((ContourIterator.from_raw
        ⟨[⟨0, 0⟩, ⟨1, 0⟩, ⟨2, 0⟩], [1, 1, 1], [0, 2]⟩).stepN 2).next = none :=
  contour_partition ⟨[⟨0, 0⟩, ⟨1, 0⟩, ⟨2, 0⟩], [1, 1, 1], [0, 2]⟩ 1 (by decide)



/-- Single-step equation of `runFuel` for a yield. -/
theorem runFuel_succ_yield {dbg : Bool} {f : Nat} {s : CurveIterator}
    {c : Curve} {s' : CurveIterator}
    (hn : CurveIterator.next dbg s = .yield c s') :
    runFuel dbg (f + 1) s = consOk c (runFuel dbg f s') := by
  simp only [runFuel, hn]

/-- Single-step equation of `runFuel` when the iterator is exhausted. -/
theorem runFuel_succ_done {dbg : Bool} {f : Nat} {s : CurveIterator}
    (hn : CurveIterator.next dbg s = .done) :
    runFuel dbg (f + 1) s = .ok [] := by
  simp only [runFuel, hn]

/-- When the contour starts off-curve (cursor initialised to `-1`), no yield
happens at the last local index, so a successful drain from cursor `i`
yields at most `length - 1 - i` segments. -/
theorem runFuel_ok_length_off (dbg : Bool) :
    ∀ (f : Nat) (s : CurveIterator) (segs : List Curve),
      runFuel dbg f s = .ok segs →
      Int.land (s.start_tag.getD 0 0) TAG_MASK = TAG_BEZIER2 →
      segs.length ≤ (s.length - 1 - s.idx).toNat := by
  intro f
  induction f with
  | zero => intro s segs h _; exact RunResult.noConfusion h
  | succ f ih =>
    intro s segs h hm
    simp only [runFuel] at h
    split at h
    · injection h with hs
      rw [← hs]
      simp
    · exact RunResult.noConfusion h
    · rename_i c0 s' hn
      cases hr : runFuel dbg f s' with
      | ok segs' =>
        rw [hr] at h
        simp only [consOk] at h
        injection h with hs
        rw [← hs]
        obtain ⟨hp, ht, hl, hlt, hsh⟩ := next_yield_state hn
        have hm' : Int.land (s'.start_tag.getD 0 0) TAG_MASK = TAG_BEZIER2 := by
          rw [ht]; exact hm
        have hb := ih s' segs' hr hm'
        have hidx : s.idx ≠ s.length - 1 := by
          intro hix
          have hwrap : s.tg 1 = s.start_tag.getD 0 0 := by
            unfold CurveIterator.tg
            rw [if_neg (by omega)]
          obtain ⟨-, hcase⟩ := next_yield_cases hn
          rcases hcase with ⟨ht1, -, -⟩ | ⟨-, hne1, -, -, -⟩ |
            ⟨-, hne1, -, -, -⟩ | ⟨ht1, -, -, -⟩
          · rw [hwrap] at ht1; rw [ht1] at hm; exact absurd hm (by decide)
          · exact hne1 hix
          · exact hne1 hix
          · rw [hwrap] at ht1; rw [ht1] at hm; exact absurd hm (by decide)
        rw [hl] at hb
        simp only [List.length_cons]
        omega
      | panic => rw [hr] at h; exact RunResult.noConfusion h
      | fuelOut => rw [hr] at h; exact RunResult.noConfusion h

/-- A successful drain from cursor `i` yields at most `length - i`
segments. -/
theorem runFuel_ok_length_on (dbg : Bool) :
    ∀ (f : Nat) (s : CurveIterator) (segs : List Curve),
      runFuel dbg f s = .ok segs →
      segs.length ≤ (s.length - s.idx).toNat := by
  intro f
  induction f with
  | zero => intro s segs h; exact RunResult.noConfusion h
  | succ f ih =>
    intro s segs h
    simp only [runFuel] at h
    split at h
    · injection h with hs
      rw [← hs]
      simp
    · exact RunResult.noConfusion h
    · rename_i c0 s' hn
      cases hr : runFuel dbg f s' with
      | ok segs' =>
        rw [hr] at h
        simp only [consOk] at h
        injection h with hs
        rw [← hs]
        obtain ⟨hp, ht, hl, hlt, hsh⟩ := next_yield_state hn
        have hb := ih s' segs' hr
        rw [hl] at hb
        simp only [List.length_cons]
        omega
      | panic => rw [hr] at h; exact RunResult.noConfusion h
      | fuelOut => rw [hr] at h; exact RunResult.noConfusion h

/-- C9: the curve iterator is finite and non-restartable: every successful
`next` strictly advances the cursor by 1, 2 or 3; a successful drain of a
contour yields at most `L` segments; and `next` returns `None` without
mutating the iterator, so after a `None` every further call is `None`. -/
theorem curve_iterator_finite :
    (∀ (dbg : Bool) (s : CurveIterator) (c : Curve) (s' : CurveIterator),
        CurveIterator.next dbg s = .yield c s' →
        s'.idx = s.idx + 1 ∨ s'.idx = s.idx + 2 ∨ s'.idx = s.idx + 3) ∧
    (∀ (dbg : Bool) (pts : List Vector) (tgs : List Int) (f : Nat)
        (segs : List Curve),
        runFuel dbg f (fromContour pts tgs) = .ok segs →
        segs.length ≤ pts.length) ∧
    (∀ (dbg : Bool) (s : CurveIterator),
        CurveIterator.next dbg s = .done →
        CurveIterator.next dbg (CurveIterator.nextState dbg s) = .done) := by
  refine ⟨?_, ?_, ?_⟩
  · intro dbg s c s' h
    exact (next_yield_state h).2.2.2.2
  · intro dbg pts tgs f segs h
    by_cases hm : Int.land (tgs.getD 0 0) TAG_MASK = TAG_BEZIER2
    · have hb := runFuel_ok_length_off dbg f (fromContour pts tgs) segs h hm
      simp only [fromContour, if_pos hm] at hb
      omega
    · have hb := runFuel_ok_length_on dbg f (fromContour pts tgs) segs h
      simp only [fromContour, if_neg hm] at hb
      omega
  · intro dbg s h
    have hst : CurveIterator.nextState dbg s = s := by
      unfold CurveIterator.nextState
      rw [h]
    rw [hst]
    exact h

/-- Concrete instances of the three parts of `curve_iterator_finite`. -/
theorem curve_iterator_finite_case :
    ((⟨[⟨0, 0⟩, ⟨1, 0⟩], [1, 1], 1, 2⟩ : CurveIterator).idx =
        (fromContour [⟨0, 0⟩, ⟨1, 0⟩] [1, 1]).idx + 1 ∨
      (⟨[⟨0, 0⟩, ⟨1, 0⟩], [1, 1], 1, 2⟩ : CurveIterator).idx =
        (fromContour [⟨0, 0⟩, ⟨1, 0⟩] [1, 1]).idx + 2 ∨
      (⟨[⟨0, 0⟩, ⟨1, 0⟩], [1, 1], 1, 2⟩ : CurveIterator).idx =
        (fromContour [⟨0, 0⟩, ⟨1, 0⟩] [1, 1]).idx + 3) ∧
    ([Curve.Line ⟨1, 0⟩, Curve.Line ⟨0, 0⟩].length ≤
      ([⟨0, 0⟩, ⟨1, 0⟩] : List Vector).length) ∧
    CurveIterator.next true
        (CurveIterator.nextState true (⟨[⟨0, 0⟩], [1], 5, 1⟩ : CurveIterator)) =
      .done :=
  ⟨curve_iterator_finite.1 true (fromContour [⟨0, 0⟩, ⟨1, 0⟩] [1, 1])
      (.Line ⟨1, 0⟩) (⟨[⟨0, 0⟩, ⟨1, 0⟩], [1, 1], 1, 2⟩ : CurveIterator)
      (by decide),
   curve_iterator_finite.2.1 true [⟨0, 0⟩, ⟨1, 0⟩] [1, 1] 3
      [Curve.Line ⟨1, 0⟩, Curve.Line ⟨0, 0⟩] (by decide),
   curve_iterator_finite.2.2 true (⟨[⟨0, 0⟩], [1], 5, 1⟩ : CurveIterator)
      (by decide)⟩



/-- `next` on an on-curve lookahead yields a `Line` and advances by 1. -/
theorem oncurve_step (dbg : Bool) (s : CurveIterator)
    (h1 : s.idx < s.length) (h2 : s.tg 1 = TAG_ONCURVE) :
    CurveIterator.next dbg s =
      .yield (.Line (s.pt 1)) { s with idx := s.idx + 1 } := by
  unfold CurveIterator.next
  rw [if_neg (by omega : ¬ s.length ≤ s.idx), h2, if_pos rfl]

/-- Draining an all-on-curve contour from cursor `j` yields the lines to the
remaining points followed by the closing line back to point 0. -/
theorem runFuel_replicate (pts : List Vector) :
    ∀ (f : Nat) (j : Int), 0 ≤ j → j < (pts.length : Int) →
      ((pts.length : Int) - j).toNat < f →
      runFuel true f
        ⟨pts, List.replicate pts.length TAG_ONCURVE, j, (pts.length : Int)⟩ =
      .ok ((pts.drop (j.toNat + 1)).map Curve.Line ++
           [Curve.Line (pts.getD 0 vdefault)]) := by
  intro f
  induction f with
  | zero => intro j h0 h1 h2; omega
  | succ f ih =>
    intro j h0 h1 h2
    have htg : CurveIterator.tg
        ⟨pts, List.replicate pts.length TAG_ONCURVE, j, (pts.length : Int)⟩ 1 =
        TAG_ONCURVE := by
      unfold CurveIterator.tg
      dsimp only
      by_cases hw : j + 1 < (pts.length : Int)
      · rw [if_pos hw]
        exact getD_replicate (by omega) _ _
      · rw [if_neg hw]
        exact getD_replicate (by omega) _ _
    have hnext := oncurve_step true
      ⟨pts, List.replicate pts.length TAG_ONCURVE, j, (pts.length : Int)⟩
      (by exact h1) htg
    rw [runFuel_succ_yield hnext]
    dsimp only
    by_cases hend : j + 1 < (pts.length : Int)
    · rw [ih (j + 1) (by omega) (by omega) (by omega)]
      simp only [consOk]
      unfold CurveIterator.pt
      dsimp only
      rw [if_pos hend]
      rw [show (j + 1).toNat = j.toNat + 1 from by omega]
      rw [List.getD_eq_getElem _ _ (by omega : j.toNat + 1 < pts.length)]
      rw [List.drop_eq_getElem_cons (show j.toNat + 1 < pts.length by omega)]
      simp only [List.map_cons, List.cons_append]
    · have hdone2 : CurveIterator.next true
          ⟨pts, List.replicate pts.length TAG_ONCURVE, j + 1,
            (pts.length : Int)⟩ = .done := by
        unfold CurveIterator.next
        dsimp only
        rw [if_pos (by omega : (pts.length : Int) ≤ j + 1)]
      obtain ⟨f', rfl⟩ : ∃ f', f = f' + 1 := ⟨f - 1, by omega⟩
      rw [runFuel_succ_done hdone2]
      simp only [consOk]
      have hdropall : pts.drop (j.toNat + 1) = [] := by
        rw [show j.toNat + 1 = pts.length from by omega]
        exact List.drop_length pts
      rw [hdropall]
      simp only [List.map_nil, List.nil_append]
      unfold CurveIterator.pt
      dsimp only
      rw [if_neg hend]

/-- C6: a contour all of whose tags are on-curve starts at point 0 and
decodes to exactly `L` `Line` segments connecting consecutive points in
order, the last one closing back to point 0. -/
theorem all_oncurve_lines (pts : List Vector) (hne : pts ≠ []) :
    curves true (fromContour pts (List.replicate pts.length TAG_ONCURVE)) =
      .ok ((pts.drop 1).map Curve.Line ++
           [Curve.Line (pts.getD 0 vdefault)]) ∧
    ((pts.drop 1).map Curve.Line ++
      [Curve.Line (pts.getD 0 vdefault)]).length = pts.length ∧
    (fromContour pts (List.replicate pts.length TAG_ONCURVE)).start? =
      some (pts.getD 0 vdefault) := by
  have hp : 0 < pts.length := List.length_pos.mpr hne
  have hfc : fromContour pts (List.replicate pts.length TAG_ONCURVE) =
      ⟨pts, List.replicate pts.length TAG_ONCURVE, 0, (pts.length : Int)⟩ := by
    unfold fromContour
    rw [getD_replicate hp, if_neg (by decide)]
  refine ⟨?_, ?_, ?_⟩
  · rw [hfc]
    unfold curves
    dsimp only
    have := runFuel_replicate pts (((pts.length : Int) - 0).toNat + 1) 0
      le_rfl (by omega) (by omega)
    rw [this]
    simp
  · simp only [List.length_append, List.length_map, List.length_drop,
      List.length_cons, List.length_nil]
    omega
  · rw [hfc]
    unfold CurveIterator.start?
    dsimp only
    rw [getD_replicate hp, if_neg (by decide)]

/-- Concrete instance of `all_oncurve_lines`: an axis-aligned triangle. -/
theorem all_oncurve_lines_case :
    curves true (fromContour [⟨0, 0⟩, ⟨2, 0⟩, ⟨2, 2⟩]
        (List.replicate 3 TAG_ONCURVE)) =
      .ok [Curve.Line ⟨2, 0⟩, Curve.Line ⟨2, 2⟩, Curve.Line ⟨0, 0⟩] ∧
    ([Curve.Line ⟨2, 0⟩, Curve.Line ⟨2, 2⟩, Curve.Line ⟨0, 0⟩] :
        List Curve).length = 3 ∧
    (fromContour [⟨0, 0⟩, ⟨2, 0⟩, ⟨2, 2⟩]
        (List.replicate 3 TAG_ONCURVE)).start? = some ⟨0, 0⟩ :=
  all_oncurve_lines [⟨0, 0⟩, ⟨2, 0⟩, ⟨2, 2⟩] (by decide)


end FT
